import Mathlib

/-!
Verification of the boolean-retrieval program (`main.py`): a shallow
embedding of its inverted-index builder, tokenizer and two-stack boolean
query evaluator, together with theorems about the claims of the
specification.

Conventions of the embedding:
* Python strings being scanned character by character are `List Char`;
  emitted terms, document ids and query tokens are `String`.
* `char.isnumeric() or char.isalpha()` is embedded as
  `Char.isDigit || Char.isAlpha` (exact on the ASCII fragment, which covers
  every concrete input appearing in the claims).
* `term.strip() == ""` is embedded by its extensional meaning: the string
  equals `""` after stripping iff every character is whitespace
  (`List.all Char.isWhitespace`).
* The Python `dict` from term to postings `set` is an association list
  `List (String × Finset String)`; `dict[term].add(doc_id)` updates the
  first matching entry and `dict[term] = {doc_id}` appends a new entry.
* Fallible stack operations (`list.pop()` on an empty list,
  `values[-1]` on an empty list) make the evaluator return `Option`:
  `none` is the `IndexError` (stack underflow) outcome.
-/

namespace BoolRet

/-- Character class used by the scanner, from
`if char.isnumeric() or char.isalpha():` (main.py line 45). -/
def isAlnumChar (c : Char) : Bool :=
  c.isDigit || c.isAlpha

/-- The scanning loop of `populate_inverted_index` (main.py lines 43-58),
abstracted over what is done at each emission: here it returns the list of
emitted terms, in emission order.  `term` is the accumulated candidate.
Note there is no flush after the loop: a candidate pending at end of input
is dropped, exactly as in the source. -/
def tokenizeAux (term : List Char) : List Char → List String
  | [] => []
  | c :: cs =>
    if isAlnumChar c then
      tokenizeAux (term ++ [c]) cs
    else
      if term.all Char.isWhitespace then
        tokenizeAux term cs
      else
        String.mk term :: tokenizeAux [] cs

/-- Terms emitted when scanning `content`, starting from an empty
accumulator (main.py line 43: `term = ""`). -/
def tokenize (content : List Char) : List String :=
  tokenizeAux [] content

/-- The inverted index: association list mirroring the Python `dict`
`self.inverted_index` from term to a set of document ids. -/
abbrev Index := List (String × Finset String)

/-- `term in inverted_index` / `inverted_index[term]`: first entry whose
key equals the term. -/
def lookupIndex : Index → String → Option (Finset String)
  | [], _ => none
  | (t, s) :: rest, term => if t = term then some s else lookupIndex rest term

/-- The postings set a term denotes: its entry when present, else `∅`
(the evaluator's `set()` fallback, main.py lines 129-132). -/
def postingsOf (idx : Index) (t : String) : Finset String :=
  (lookupIndex idx t).getD ∅

/-- `if term in inverted_index: inverted_index[term].add(doc_id)
else: inverted_index[term] = set(); inverted_index[term].add(doc_id)`
(main.py lines 51-56) on the association list. -/
def updateAssoc : Index → String → String → Index
  | [], term, doc_id => [(term, {doc_id})]
  | (t, s) :: rest, term, doc_id =>
    if t = term then (t, insert doc_id s) :: rest
    else (t, s) :: updateAssoc rest term doc_id

/-- The scanning loop of `populate_inverted_index` (main.py lines 43-58)
with insertion into the index performed at each emission, as in the
source. -/
def populateAux (doc_id : String) (idx : Index) (term : List Char) :
    List Char → Index
  | [] => idx
  | c :: cs =>
    if isAlnumChar c then
      populateAux doc_id idx (term ++ [c]) cs
    else
      if term.all Char.isWhitespace then
        populateAux doc_id idx term cs
      else
        populateAux doc_id (updateAssoc idx (String.mk term) doc_id) [] cs

/-- `collect_content` (main.py lines 60-68): concatenate the text of every
element of the container.  Elements supplied by the XML extractor are the
already-delimited field texts. -/
def collect_content (container : List (List Char)) : List Char :=
  container.foldl (fun res elem => res ++ elem) []

/-- A document at the core boundary: its id and the texts of its TITLE,
HEADING and TEXT tags (`document.find_all(...)`, main.py lines 39-41). -/
structure Doc where
  docId : String
  titles : List (List Char)
  headings : List (List Char)
  texts : List (List Char)
deriving DecidableEq

/-- The buffer built by `populate_inverted_index` (main.py lines 38-41):
TITLE texts, then HEADING texts, then TEXT texts. -/
def docContent (d : Doc) : List Char :=
  collect_content d.titles ++ collect_content d.headings ++
    collect_content d.texts

/-- `populate_inverted_index` (main.py lines 32-58): scan the document's
content, inserting its id under every emitted term. -/
def populate_inverted_index (idx : Index) (d : Doc) : Index :=
  populateAux d.docId idx [] (docContent d)

/-- `generate_inverted_index` (main.py lines 23-30): process each
document in order. -/
def generate_inverted_index (idx : Index) (docs : List Doc) : Index :=
  docs.foldl populate_inverted_index idx

/-- The index built from a corpus, starting from the empty dict
(main.py line 7). -/
def buildIndex (docs : List Doc) : Index :=
  generate_inverted_index [] docs

/-! ## The boolean query evaluator (main.py lines 107-180) -/

/-- `is_operator` (main.py lines 159-163). -/
def is_operator (elem : String) : Bool :=
  elem == "AND" || elem == "OR" || elem == "NOT"

/-- `precedence` (main.py lines 150-157). -/
def precedence (op : String) : Nat :=
  if op = "AND" ∨ op = "OR" then 1 else 2

/-- `perform_operation` (main.py lines 166-180); `posting1` is the value
popped first (the stack top), `posting2` the one popped second. -/
def performOperation (posting1 posting2 : Finset String) (op : String) :
    Finset String :=
  if op = "AND" then posting1 ∩ posting2
  else if op = "OR" then posting1 ∪ posting2
  else posting2 \ posting1

/-- The inner `while` of `evaluate` (main.py lines 119-124): while the
operator stack is non-empty and its top has precedence ≥ `p` (the incoming
operator's precedence), pop two values and one operator and push the
reduction.  Stacks have their top at the head; `none` is stack
underflow. -/
def reduceLoop (p : Nat) :
    List String → List (Finset String) →
      Option (List String × List (Finset String))
  | [], vals => some ([], vals)
  | op :: ops, vals =>
    if precedence op ≥ p then
      match vals with
      | v1 :: v2 :: rest => reduceLoop p ops (performOperation v1 v2 op :: rest)
      | _ => none
    else some (op :: ops, vals)

/-- The main token loop of `evaluate` (main.py lines 117-133). -/
def mainPass (idx : Index) :
    List String → List String → List (Finset String) →
      Option (List String × List (Finset String))
  | [], ops, vals => some (ops, vals)
  | elem :: rest, ops, vals =>
    if is_operator elem then
      match reduceLoop (precedence elem) ops vals with
      | some (ops', vals') => mainPass idx rest (elem :: ops') vals'
      | none => none
    else
      match lookupIndex idx elem with
      | some postings => mainPass idx rest ops (postings :: vals)
      | none => mainPass idx rest ops (∅ :: vals)

/-- The final drain of `evaluate` (main.py lines 136-145): pop an
operator and two values; on `"NOT"` additionally pop and discard one more
operator and push the `"difference"` reduction, otherwise push the normal
reduction. -/
def drainOps :
    List String → List (Finset String) → Option (List (Finset String))
  | [], vals => some vals
  | first_op :: ops, vals =>
    match vals with
    | v1 :: v2 :: rest =>
      if first_op = "NOT" then
        match ops with
        | [] => none
        | _ :: ops' => drainOps ops' (performOperation v1 v2 "difference" :: rest)
      else
        drainOps ops (performOperation v1 v2 first_op :: rest)
    | _ => none

/-- `evaluate` (main.py lines 112-147): main pass from empty stacks, then
the drain, then `self.values[-1]` (the stack top; `none` when empty). -/
def evaluate (query : List String) (idx : Index) : Option (Finset String) :=
  match mainPass idx query [] [] with
  | none => none
  | some (ops, vals) =>
    match drainOps ops vals with
    | none => none
    | some vals' => vals'.head?

/-! ## Tokenizer lemmas -/

lemma alnum_not_whitespace {c : Char} (h : isAlnumChar c = true) :
    c.isWhitespace = false := by
  cases hw : c.isWhitespace
  · rfl
  · exfalso
    have hmem : ((c = ' ' ∨ c = '\t') ∨ c = '\x0d') ∨ c = '\n' := by
      simpa [Char.isWhitespace] using hw
    rcases hmem with ((h' | h') | h') | h' <;> subst h' <;>
      exact absurd h (by decide)

lemma all_alnum_all_whitespace_eq_nil {l : List Char}
    (h1 : l.all isAlnumChar = true) (h2 : l.all Char.isWhitespace = true) :
    l = [] := by
  cases l with
  | nil => rfl
  | cons c cs =>
    exfalso
    simp only [List.all_cons, Bool.and_eq_true] at h1 h2
    have := alnum_not_whitespace h1.1
    rw [h2.1] at this
    exact absurd this (by simp)

lemma tokenizeAux_nil (term : List Char) : tokenizeAux term [] = [] := rfl

lemma tokenizeAux_emit (term : List Char) (c : Char) (cs : List Char)
    (hc : isAlnumChar c = false) (hw : term.all Char.isWhitespace = false) :
    tokenizeAux term (c :: cs) = String.mk term :: tokenizeAux [] cs := by
  simp [tokenizeAux, hc, hw]

lemma mem_tokenizeAux_not_whitespace :
    ∀ (cs term : List Char) (s : String), s ∈ tokenizeAux term cs →
      s.data.all Char.isWhitespace = false := by
  intro cs
  induction cs with
  | nil => intro term s h; simp [tokenizeAux] at h
  | cons c cs ih =>
    intro term s h
    cases hc : isAlnumChar c with
    | true =>
      rw [tokenizeAux, if_pos hc] at h
      exact ih _ _ h
    | false =>
      rw [tokenizeAux, if_neg (by simp [hc])] at h
      cases hw : term.all Char.isWhitespace with
      | true =>
        rw [if_pos hw] at h
        exact ih _ _ h
      | false =>
        rw [if_neg (by simp [hw])] at h
        rcases List.mem_cons.mp h with h' | h'
        · subst h'; exact hw
        · exact ih _ _ h'

lemma mem_tokenize_ne_empty {content : List Char} {s : String}
    (h : s ∈ tokenize content) : s ≠ "" := by
  intro he
  have := mem_tokenizeAux_not_whitespace content [] s h
  subst he
  simp at this

/-- Claim C5 (counterexample): contrary to the claim, the final alphanumeric run
of the input is not emitted at end of input: `tokenize "a1 b-2!!c3"` is
`["a1","b","2"]`, not `["a1","b","2","c3"]`. -/
theorem tokenizer_end_of_input_cex :
    tokenize "a1 b-2!!c3".data ≠ ["a1", "b", "2", "c3"] ∧
    tokenize "a1 b-2!!c3".data = ["a1", "b", "2"] := by
  constructor
  · decide
  · decide

/-- Claim C5 (amended): scanning emits a term exactly when a non-alphanumeric
character is reached with a non-empty accumulated candidate; at end of
input the pending candidate is discarded, so the final alphanumeric run is
not emitted. `tokenize ""` yields no terms, `tokenize "a1 b-2!!c3"`
yields `["a1","b","2"]` in that order, and no empty term is ever
emitted. -/
theorem tokenizer_end_of_input_amended :
    (∀ (term : List Char) (c : Char) (cs : List Char),
        isAlnumChar c = false → term.all Char.isWhitespace = false →
        tokenizeAux term (c :: cs) = String.mk term :: tokenizeAux [] cs) ∧
    (∀ term : List Char, tokenizeAux term [] = []) ∧
    tokenize "".data = [] ∧
    tokenize "a1 b-2!!c3".data = ["a1", "b", "2"] ∧
    (∀ (content : List Char) (s : String), s ∈ tokenize content → s ≠ "") :=
  ⟨tokenizeAux_emit, tokenizeAux_nil, rfl, by decide,
    fun _ _ h => mem_tokenize_ne_empty h⟩

/-- Claim C5 (witness): the amended emission rule applied at a concrete input:
scanning `"a "` emits the pending candidate `"a"` at the space. -/
theorem tokenizer_end_of_input_amended_witness :
    tokenizeAux ['a'] [' '] = ["a"] := by
  have h := tokenizer_end_of_input_amended.1 ['a'] ' ' [] (by decide) (by decide)
  simpa using h

/-! ## Index construction lemmas -/

lemma lookupIndex_updateAssoc (idx : Index) (t doc_id T : String) :
    lookupIndex (updateAssoc idx t doc_id) T =
      if T = t then some (insert doc_id (postingsOf idx t))
      else lookupIndex idx T := by
  induction idx with
  | nil =>
    by_cases h : T = t
    · subst h; simp [updateAssoc, lookupIndex, postingsOf]
    · simp [updateAssoc, lookupIndex, postingsOf, h, Ne.symm h]
  | cons p rest ih =>
    obtain ⟨t₀, s⟩ := p
    by_cases h0 : t₀ = t
    · subst h0
      by_cases h : T = t₀
      · subst h; simp [updateAssoc, lookupIndex, postingsOf]
      · simp [updateAssoc, lookupIndex, h, Ne.symm h]
    · by_cases h : T = t₀
      · subst h
        simp [updateAssoc, h0, lookupIndex, fun hh : T = t => h0 (hh ▸ rfl)]
      · simp only [updateAssoc, if_neg h0, lookupIndex, if_neg (Ne.symm h)]
        rw [ih]
        by_cases ht : T = t
        · subst ht
          simp [postingsOf, lookupIndex, Ne.symm h]
        · simp [ht]

lemma postingsOf_updateAssoc (idx : Index) (t doc_id T : String) :
    postingsOf (updateAssoc idx t doc_id) T =
      if T = t then insert doc_id (postingsOf idx t) else postingsOf idx T := by
  unfold postingsOf
  rw [lookupIndex_updateAssoc]
  by_cases h : T = t <;> simp [h, postingsOf]

lemma postingsOf_foldl_insert (doc_id : String) :
    ∀ (ts : List String) (idx : Index) (T : String),
      postingsOf (ts.foldl (fun i t => updateAssoc i t doc_id) idx) T =
        if T ∈ ts then insert doc_id (postingsOf idx T)
        else postingsOf idx T := by
  intro ts
  induction ts with
  | nil => intro idx T; simp
  | cons t ts ih =>
    intro idx T
    simp only [List.foldl_cons]
    rw [ih]
    by_cases ht : T = t
    · subst ht
      by_cases hmem : T ∈ ts <;>
        simp [hmem, postingsOf_updateAssoc, Finset.insert_idem]
    · by_cases hmem : T ∈ ts <;>
        simp [hmem, ht, postingsOf_updateAssoc, List.mem_cons]

lemma lookupIndex_foldl_ne_none (doc_id : String) :
    ∀ (ts : List String) (idx : Index) (T : String),
      lookupIndex (ts.foldl (fun i t => updateAssoc i t doc_id) idx) T ≠ none ↔
        T ∈ ts ∨ lookupIndex idx T ≠ none := by
  intro ts
  induction ts with
  | nil => intro idx T; simp
  | cons t ts ih =>
    intro idx T
    simp only [List.foldl_cons]
    rw [ih, lookupIndex_updateAssoc]
    by_cases ht : T = t
    · subst ht; simp
    · simp [ht]

lemma populateAux_eq_foldl (doc_id : String) :
    ∀ (cs term : List Char) (idx : Index),
      populateAux doc_id idx term cs =
        (tokenizeAux term cs).foldl (fun i t => updateAssoc i t doc_id) idx := by
  intro cs
  induction cs with
  | nil => intro term idx; rfl
  | cons c cs ih =>
    intro term idx
    cases hc : isAlnumChar c with
    | true => simp [populateAux, tokenizeAux, hc, ih]
    | false =>
      cases hw : term.all Char.isWhitespace with
      | true => simp [populateAux, tokenizeAux, hc, hw, ih]
      | false => simp [populateAux, tokenizeAux, hc, hw, ih]

lemma postingsOf_populate (idx : Index) (d : Doc) (T : String) :
    postingsOf (populate_inverted_index idx d) T =
      if T ∈ tokenize (docContent d) then insert d.docId (postingsOf idx T)
      else postingsOf idx T := by
  unfold populate_inverted_index
  rw [populateAux_eq_foldl]
  exact postingsOf_foldl_insert d.docId _ idx T

lemma lookupIndex_populate_ne_none (idx : Index) (d : Doc) (T : String) :
    lookupIndex (populate_inverted_index idx d) T ≠ none ↔
      T ∈ tokenize (docContent d) ∨ lookupIndex idx T ≠ none := by
  unfold populate_inverted_index
  rw [populateAux_eq_foldl]
  exact lookupIndex_foldl_ne_none d.docId _ idx T

/-- The set of ids of the documents of `docs` whose content contains the
term `T` (proof-side characterization of what construction inserts). -/
def occSet (T : String) : List Doc → Finset String
  | [] => ∅
  | d :: ds =>
    if T ∈ tokenize (docContent d) then insert d.docId (occSet T ds)
    else occSet T ds

lemma postingsOf_generate (T : String) :
    ∀ (docs : List Doc) (idx : Index),
      postingsOf (generate_inverted_index idx docs) T =
        postingsOf idx T ∪ occSet T docs := by
  intro docs
  induction docs with
  | nil => intro idx; simp [generate_inverted_index, occSet]
  | cons d ds ih =>
    intro idx
    unfold generate_inverted_index at ih ⊢
    simp only [List.foldl_cons]
    rw [ih, postingsOf_populate]
    by_cases h : T ∈ tokenize (docContent d)
    · simp [h, occSet, Finset.insert_union, Finset.union_insert]
    · simp [h, occSet]

lemma lookupIndex_generate_ne_none (T : String) :
    ∀ (docs : List Doc) (idx : Index),
      lookupIndex (generate_inverted_index idx docs) T ≠ none ↔
        (∃ d ∈ docs, T ∈ tokenize (docContent d)) ∨
          lookupIndex idx T ≠ none := by
  intro docs
  induction docs with
  | nil => intro idx; simp [generate_inverted_index]
  | cons d ds ih =>
    intro idx
    unfold generate_inverted_index at ih ⊢
    simp only [List.foldl_cons]
    rw [ih, lookupIndex_populate_ne_none]
    constructor
    · rintro (⟨d', hd', hT⟩ | h | h)
      · exact Or.inl ⟨d', by simp [hd'], hT⟩
      · exact Or.inl ⟨d, by simp, h⟩
      · exact Or.inr h
    · rintro (⟨d', hd', hT⟩ | h)
      · rcases List.mem_cons.mp hd' with rfl | hd''
        · exact Or.inr (Or.inl hT)
        · exact Or.inl ⟨d', hd'', hT⟩
      · exact Or.inr (Or.inr h)

lemma mem_occSet {a T : String} :
    ∀ {docs : List Doc},
      a ∈ occSet T docs ↔
        ∃ d ∈ docs, T ∈ tokenize (docContent d) ∧ d.docId = a := by
  intro docs
  induction docs with
  | nil => simp [occSet]
  | cons d ds ih =>
    by_cases h : T ∈ tokenize (docContent d)
    · simp only [occSet, if_pos h, Finset.mem_insert, ih]
      constructor
      · rintro (rfl | ⟨d', hd', hT, rfl⟩)
        · exact ⟨d, by simp, h, rfl⟩
        · exact ⟨d', by simp [hd'], hT, rfl⟩
      · rintro ⟨d', hd', hT, rfl⟩
        rcases List.mem_cons.mp hd' with rfl | hd''
        · exact Or.inl rfl
        · exact Or.inr ⟨d', hd'', hT, rfl⟩
    · simp only [occSet, if_neg h, ih]
      constructor
      · rintro ⟨d', hd', hT, rfl⟩
        exact ⟨d', by simp [hd'], hT, rfl⟩
      · rintro ⟨d', hd', hT, rfl⟩
        rcases List.mem_cons.mp hd' with rfl | hd''
        · exact absurd hT h
        · exact ⟨d', hd'', hT, rfl⟩

/-- Claim C1: for every term `T` and document `D` of a corpus with
pairwise-distinct document ids, `D`'s id is in the built index's postings
for `T` iff `T` occurs in the tokenization of `D`'s concatenated
TITLE+HEADING+TEXT content; and the index has an entry only for terms that
occur in at least one document. -/
theorem index_membership_invariant (docs : List Doc)
    (hnd : (docs.map Doc.docId).Nodup) :
    (∀ D ∈ docs, ∀ T : String,
        D.docId ∈ postingsOf (buildIndex docs) T ↔
          T ∈ tokenize (docContent D)) ∧
    (∀ T : String, lookupIndex (buildIndex docs) T ≠ none →
        ∃ D ∈ docs, T ∈ tokenize (docContent D)) := by
  constructor
  · intro D hD T
    unfold buildIndex
    rw [postingsOf_generate]
    have h0 : postingsOf [] T = ∅ := rfl
    rw [h0, Finset.empty_union, mem_occSet]
    constructor
    · rintro ⟨d', hd', hT, heq⟩
      have : d' = D := List.inj_on_of_nodup_map hnd hd' hD heq
      rwa [this] at hT
    · intro hT
      exact ⟨D, hD, hT, rfl⟩
  · intro T h
    unfold buildIndex at h
    rw [lookupIndex_generate_ne_none] at h
    rcases h with h | h
    · exact h
    · exact absurd rfl h

/-- Claim C1 (witness): the invariant applied to a concrete two-document
corpus, for the term `"cat"` and the first document. -/
theorem index_membership_invariant_witness :
    "D1" ∈ postingsOf
        (buildIndex [Doc.mk "D1" [] [] ["cat dog ".data],
          Doc.mk "D2" [] [] ["dog bird ".data]]) "cat" ↔
      "cat" ∈ tokenize (docContent (Doc.mk "D1" [] [] ["cat dog ".data])) :=
  (index_membership_invariant
      [Doc.mk "D1" [] [] ["cat dog ".data], Doc.mk "D2" [] [] ["dog bird ".data]]
      (by decide)).1
    (Doc.mk "D1" [] [] ["cat dog ".data]) (by decide) "cat"

/-! ## Concatenation order (claim C6) -/

/-- A field text that is empty or ends with a non-alphanumeric character
(so the scanner's pending candidate is flushed at the field boundary). -/
def SepTerminated (f : List Char) : Prop :=
  f = [] ∨ ∃ (s : List Char) (c : Char), f = s ++ [c] ∧ isAlnumChar c = false

lemma tokenizeAux_append_sep {c : Char} (hc : isAlnumChar c = false) :
    ∀ (xs term ys : List Char), term.all isAlnumChar = true →
      tokenizeAux term (xs ++ c :: ys) =
        tokenizeAux term (xs ++ [c]) ++ tokenizeAux [] ys := by
  intro xs
  induction xs with
  | nil =>
    intro term ys hterm
    cases hw : term.all Char.isWhitespace with
    | true =>
      have : term = [] := all_alnum_all_whitespace_eq_nil hterm hw
      subst this
      simp [tokenizeAux, hc]
    | false =>
      simp [tokenizeAux, hc, hw]
  | cons x xs ih =>
    intro term ys hterm
    cases hx : isAlnumChar x with
    | true =>
      have hterm' : (term ++ [x]).all isAlnumChar = true := by
        simp [List.all_append, hterm, hx]
      simpa [tokenizeAux, hx] using ih (term ++ [x]) ys hterm'
    | false =>
      cases hw : term.all Char.isWhitespace with
      | true =>
        simpa [tokenizeAux, hx, hw] using ih term ys hterm
      | false =>
        simpa [tokenizeAux, hx, hw] using ih [] ys (by simp)

lemma tokenize_append_sep {xs : List Char} (h : SepTerminated xs)
    (ys : List Char) :
    tokenize (xs ++ ys) = tokenize xs ++ tokenize ys := by
  rcases h with rfl | ⟨s, c, rfl, hc⟩
  · simp [tokenize, tokenizeAux]
  · unfold tokenize
    have h' := tokenizeAux_append_sep hc s [] ys (by simp)
    simpa [List.append_assoc] using h'

lemma tokenize_flatten :
    ∀ {fields : List (List Char)}, (∀ f ∈ fields, SepTerminated f) →
      tokenize fields.flatten = (fields.map tokenize).flatten := by
  intro fields
  induction fields with
  | nil => intro _; rfl
  | cons f fs ih =>
    intro h
    simp only [List.flatten_cons, List.map_cons]
    rw [tokenize_append_sep (h f (by simp)), ih (fun g hg => h g (by simp [hg]))]

lemma flatten_perm {α : Type} :
    ∀ {l₁ l₂ : List (List α)}, l₁.Perm l₂ → l₁.flatten.Perm l₂.flatten := by
  intro l₁ l₂ h
  induction h with
  | nil => exact List.Perm.refl _
  | cons x _ ih => simpa [List.flatten_cons] using ih.append_left x
  | swap x y l =>
    simp only [List.flatten_cons]
    rw [← List.append_assoc, ← List.append_assoc]
    exact List.perm_append_comm.append_right _
  | trans _ _ ih₁ ih₂ => exact ih₁.trans ih₂

/-- Claim C6 (counterexample): concatenation order does affect the
contributed index entries.  With field texts `"a"` and `"b "` the order
`"a"+"b "` tokenizes to `["ab"]` while `"b "+"a"` tokenizes to `["b"]`,
and correspondingly only the first order creates an `"ab"` entry. -/
theorem concat_order_cex :
    (tokenize ("a".data ++ "b ".data ++ "".data)).toFinset ≠
      (tokenize ("b ".data ++ "a".data ++ "".data)).toFinset ∧
    lookupIndex (populateAux "D" [] [] ("a".data ++ "b ".data ++ "".data)) "ab" ≠
      lookupIndex (populateAux "D" [] [] ("b ".data ++ "a".data ++ "".data)) "ab" := by
  constructor
  · decide
  · decide

/-- Claim C6 (amended): provided every field text is empty or ends with a
non-alphanumeric character (so no term straddles a field boundary and no
final run is pending at end of input), permuting the field texts before
concatenation leaves both the set of tokenized terms and the postings each
document contributes to the index unchanged. -/
theorem concat_order_amended (fields fields' : List (List Char))
    (hsep : ∀ f ∈ fields, SepTerminated f) (hperm : fields.Perm fields') :
    (tokenize fields.flatten).toFinset = (tokenize fields'.flatten).toFinset ∧
    (∀ (idx : Index) (doc_id T : String),
        postingsOf (populateAux doc_id idx [] fields.flatten) T =
          postingsOf (populateAux doc_id idx [] fields'.flatten) T) := by
  have hsep' : ∀ f ∈ fields', SepTerminated f :=
    fun f hf => hsep f (hperm.mem_iff.mpr hf)
  have hp : (tokenize fields.flatten).Perm (tokenize fields'.flatten) := by
    rw [tokenize_flatten hsep, tokenize_flatten hsep']
    exact flatten_perm (hperm.map tokenize)
  refine ⟨List.toFinset_eq_of_perm _ _ hp, ?_⟩
  intro idx doc_id T
  rw [populateAux_eq_foldl, populateAux_eq_foldl]
  have h1 := postingsOf_foldl_insert doc_id (tokenizeAux [] fields.flatten) idx T
  have h2 := postingsOf_foldl_insert doc_id (tokenizeAux [] fields'.flatten) idx T
  rw [h1, h2]
  have hmem : T ∈ tokenize fields.flatten ↔ T ∈ tokenize fields'.flatten :=
    hp.mem_iff
  unfold tokenize at hmem
  by_cases hT : T ∈ tokenizeAux [] fields.flatten
  · simp [hT, hmem.mp hT]
  · have hT' : T ∉ tokenizeAux [] fields'.flatten := fun hh => hT (hmem.mpr hh)
    simp [hT, hT']

/-- Claim C6 (witness): the amended statement applied to the concrete
separator-terminated fields `"a "` and `"b "` in both orders. -/
theorem concat_order_amended_witness :
    (tokenize (["a ".data, "b ".data] : List (List Char)).flatten).toFinset =
      (tokenize (["b ".data, "a ".data] : List (List Char)).flatten).toFinset :=
  (concat_order_amended ["a ".data, "b ".data] ["b ".data, "a ".data]
    (by
      intro f hf
      rcases List.mem_cons.mp hf with rfl | hf'
      · exact Or.inr ⟨['a'], ' ', by decide, by decide⟩
      · rcases List.mem_cons.mp hf' with rfl | h''
        · exact Or.inr ⟨['b'], ' ', by decide, by decide⟩
        · simp at h'')
    (List.Perm.swap "b ".data "a ".data [])).1

/-! ## Evaluator lemmas and claims -/

lemma mainPass_terms (idx : Index) :
    ∀ (tokens ops : List String) (vals : List (Finset String)),
      (∀ t ∈ tokens, is_operator t = false) →
      mainPass idx tokens ops vals =
        some (ops, (tokens.map (postingsOf idx)).reverse ++ vals) := by
  intro tokens
  induction tokens with
  | nil => intro ops vals _; simp [mainPass]
  | cons t ts ih =>
    intro ops vals h
    have ht : is_operator t = false := h t (by simp)
    have hrest : ∀ x ∈ ts, is_operator x = false :=
      fun x hx => h x (by simp [hx])
    cases hl : lookupIndex idx t with
    | some p =>
      have hpo : postingsOf idx t = p := by simp [postingsOf, hl]
      simp [mainPass, ht, hl, ih ops (p :: vals) hrest, hpo,
        List.reverse_cons, List.append_assoc]
    | none =>
      have hpo : postingsOf idx t = ∅ := by simp [postingsOf, hl]
      simp [mainPass, ht, hl, ih ops (∅ :: vals) hrest, hpo,
        List.reverse_cons, List.append_assoc]

/-- Claim C10: a non-empty stream of term tokens only evaluates without
any failure: the operator stack stays empty, the drain reduces nothing,
the postings of the last term are returned, and every earlier term's
postings remain (ignored) on the value stack. -/
theorem operator_free_stream (idx : Index) (tokens : List String)
    (hne : tokens ≠ []) (hall : ∀ t ∈ tokens, is_operator t = false) :
    mainPass idx tokens [] [] =
      some ([], (tokens.map (postingsOf idx)).reverse) ∧
    drainOps [] ((tokens.map (postingsOf idx)).reverse) =
      some ((tokens.map (postingsOf idx)).reverse) ∧
    evaluate tokens idx = some (postingsOf idx (tokens.getLast hne)) := by
  have hm := mainPass_terms idx tokens [] [] hall
  rw [List.append_nil] at hm
  refine ⟨hm, rfl, ?_⟩
  simp [evaluate, hm, drainOps, List.head?_reverse, List.getLast?_map,
    List.getLast?_eq_getLast_of_ne_nil hne]

/-- Claim C10 (witness): two term tokens against a concrete index. -/
theorem operator_free_stream_witness :
    evaluate ["u", "v"] [("u", {"5"}), ("v", {"7"})] =
      some (postingsOf [("u", {"5"}), ("v", {"7"})]
        (["u", "v"].getLast (by decide))) :=
  (operator_free_stream [("u", {"5"}), ("v", {"7"})] ["u", "v"]
    (by decide) (by decide)).2.2

lemma is_operator_AND : is_operator "AND" = true := by decide

lemma is_operator_OR : is_operator "OR" = true := by decide

lemma is_operator_NOT : is_operator "NOT" = true := by decide

lemma precedence_AND : precedence "AND" = 1 := by decide

lemma precedence_OR : precedence "OR" = 1 := by decide

lemma precedence_NOT : precedence "NOT" = 2 := by decide

/-- Claim C2: the final drain pops one operator and two values; on `"NOT"`
it pops and discards one extra operator before pushing `v2 − v1`,
otherwise it pushes the normal reduction; consequently
`[A, "AND", "NOT", B]` evaluates to `postings(A) \ postings(B)`. -/
theorem drain_not_semantics (idx : Index) (A B : String)
    (hA : is_operator A = false) (hB : is_operator B = false) :
    (∀ (ops : List String) (v1 v2 : Finset String)
        (rest : List (Finset String)),
        drainOps ("NOT" :: ops) (v1 :: v2 :: rest) =
          match ops with
          | [] => none
          | _ :: ops' =>
            drainOps ops' (performOperation v1 v2 "difference" :: rest)) ∧
    (∀ (op : String) (ops : List String) (v1 v2 : Finset String)
        (rest : List (Finset String)), op ≠ "NOT" →
        drainOps (op :: ops) (v1 :: v2 :: rest) =
          drainOps ops (performOperation v1 v2 op :: rest)) ∧
    evaluate [A, "AND", "NOT", B] idx =
      some (postingsOf idx A \ postingsOf idx B) := by
  refine ⟨?_, ?_, ?_⟩
  · intro ops v1 v2 rest
    cases ops <;> simp [drainOps]
  · intro op ops v1 v2 rest hop
    cases ops <;> simp [drainOps, hop]
  · cases hlA : lookupIndex idx A with
    | some pA =>
      cases hlB : lookupIndex idx B with
      | some pB =>
        simp [evaluate, mainPass, reduceLoop, drainOps, performOperation,
          is_operator_AND, is_operator_OR, is_operator_NOT,
          precedence_AND, precedence_OR, precedence_NOT, hA, hB, hlA, hlB, postingsOf]
      | none =>
        simp [evaluate, mainPass, reduceLoop, drainOps, performOperation,
          is_operator_AND, is_operator_OR, is_operator_NOT,
          precedence_AND, precedence_OR, precedence_NOT, hA, hB, hlA, hlB, postingsOf]
    | none =>
      cases hlB : lookupIndex idx B with
      | some pB =>
        simp [evaluate, mainPass, reduceLoop, drainOps, performOperation,
          is_operator_AND, is_operator_OR, is_operator_NOT,
          precedence_AND, precedence_OR, precedence_NOT, hA, hB, hlA, hlB, postingsOf]
      | none =>
        simp [evaluate, mainPass, reduceLoop, drainOps, performOperation,
          is_operator_AND, is_operator_OR, is_operator_NOT,
          precedence_AND, precedence_OR, precedence_NOT, hA, hB, hlA, hlB, postingsOf]

/-- Claim C2 (witness): `x AND NOT y` on a concrete index. -/
theorem drain_not_semantics_witness :
    evaluate ["x", "AND", "NOT", "y"] [("x", {"1", "2"}), ("y", {"2"})] =
      some (postingsOf [("x", {"1", "2"}), ("y", {"2"})] "x" \
        postingsOf [("x", {"1", "2"}), ("y", {"2"})] "y") :=
  (drain_not_semantics [("x", {"1", "2"}), ("y", {"2"})] "x" "y"
    (by decide) (by decide)).2.2

/-- Claim C3: `AND` and `OR` have precedence 1 and `NOT` precedence 2; an
incoming operator first reduces while the stack top's precedence is ≥ its
own, then is pushed; consequently `[X, "AND", Y, "OR", Z]` evaluates to
`(postings(X) ∩ postings(Y)) ∪ postings(Z)`. -/
theorem precedence_eager_reduction (idx : Index) (X Y Z : String)
    (hX : is_operator X = false) (hY : is_operator Y = false)
    (hZ : is_operator Z = false) :
    precedence "AND" = 1 ∧ precedence "OR" = 1 ∧ precedence "NOT" = 2 ∧
    (∀ (p : Nat) (op : String) (ops : List String) (v1 v2 : Finset String)
        (rest : List (Finset String)), precedence op ≥ p →
        reduceLoop p (op :: ops) (v1 :: v2 :: rest) =
          reduceLoop p ops (performOperation v1 v2 op :: rest)) ∧
    (∀ (p : Nat) (op : String) (ops : List String)
        (vals : List (Finset String)), precedence op < p →
        reduceLoop p (op :: ops) vals = some (op :: ops, vals)) ∧
    evaluate [X, "AND", Y, "OR", Z] idx =
      some ((postingsOf idx X ∩ postingsOf idx Y) ∪ postingsOf idx Z) := by
  refine ⟨by decide, by decide, by decide, ?_, ?_, ?_⟩
  · intro p op ops v1 v2 rest hge
    simp [reduceLoop, hge]
  · intro p op ops vals hlt
    simp [reduceLoop, Nat.not_le.mpr hlt]
  · cases hlX : lookupIndex idx X with
    | some pX =>
      cases hlY : lookupIndex idx Y with
      | some pY =>
        cases hlZ : lookupIndex idx Z with
        | some pZ =>
          simp [evaluate, mainPass, reduceLoop, drainOps, performOperation,
            is_operator_AND, is_operator_OR, is_operator_NOT,
          precedence_AND, precedence_OR, precedence_NOT, hX, hY, hZ, hlX, hlY, hlZ, postingsOf,
            Finset.union_comm, Finset.inter_comm]
        | none =>
          simp [evaluate, mainPass, reduceLoop, drainOps, performOperation,
            is_operator_AND, is_operator_OR, is_operator_NOT,
          precedence_AND, precedence_OR, precedence_NOT, hX, hY, hZ, hlX, hlY, hlZ, postingsOf,
            Finset.union_comm, Finset.inter_comm]
      | none =>
        cases hlZ : lookupIndex idx Z with
        | some pZ =>
          simp [evaluate, mainPass, reduceLoop, drainOps, performOperation,
            is_operator_AND, is_operator_OR, is_operator_NOT,
          precedence_AND, precedence_OR, precedence_NOT, hX, hY, hZ, hlX, hlY, hlZ, postingsOf,
            Finset.union_comm, Finset.inter_comm]
        | none =>
          simp [evaluate, mainPass, reduceLoop, drainOps, performOperation,
            is_operator_AND, is_operator_OR, is_operator_NOT,
          precedence_AND, precedence_OR, precedence_NOT, hX, hY, hZ, hlX, hlY, hlZ, postingsOf,
            Finset.union_comm, Finset.inter_comm]
    | none =>
      cases hlY : lookupIndex idx Y with
      | some pY =>
        cases hlZ : lookupIndex idx Z with
        | some pZ =>
          simp [evaluate, mainPass, reduceLoop, drainOps, performOperation,
            is_operator_AND, is_operator_OR, is_operator_NOT,
          precedence_AND, precedence_OR, precedence_NOT, hX, hY, hZ, hlX, hlY, hlZ, postingsOf,
            Finset.union_comm, Finset.inter_comm]
        | none =>
          simp [evaluate, mainPass, reduceLoop, drainOps, performOperation,
            is_operator_AND, is_operator_OR, is_operator_NOT,
          precedence_AND, precedence_OR, precedence_NOT, hX, hY, hZ, hlX, hlY, hlZ, postingsOf,
            Finset.union_comm, Finset.inter_comm]
      | none =>
        cases hlZ : lookupIndex idx Z with
        | some pZ =>
          simp [evaluate, mainPass, reduceLoop, drainOps, performOperation,
            is_operator_AND, is_operator_OR, is_operator_NOT,
          precedence_AND, precedence_OR, precedence_NOT, hX, hY, hZ, hlX, hlY, hlZ, postingsOf,
            Finset.union_comm, Finset.inter_comm]
        | none =>
          simp [evaluate, mainPass, reduceLoop, drainOps, performOperation,
            is_operator_AND, is_operator_OR, is_operator_NOT,
          precedence_AND, precedence_OR, precedence_NOT, hX, hY, hZ, hlX, hlY, hlZ, postingsOf,
            Finset.union_comm, Finset.inter_comm]

/-- Claim C3 (witness): `x AND y OR z` on a concrete index. -/
theorem precedence_eager_reduction_witness :
    evaluate ["x", "AND", "y", "OR", "z"]
        [("x", {"1", "2"}), ("y", {"2", "3"}), ("z", {"9"})] =
      some ((postingsOf [("x", {"1", "2"}), ("y", {"2", "3"}), ("z", {"9"})] "x" ∩
          postingsOf [("x", {"1", "2"}), ("y", {"2", "3"}), ("z", {"9"})] "y") ∪
        postingsOf [("x", {"1", "2"}), ("y", {"2", "3"}), ("z", {"9"})] "z") :=
  (precedence_eager_reduction
    [("x", {"1", "2"}), ("y", {"2", "3"}), ("z", {"9"})] "x" "y" "z"
    (by decide) (by decide) (by decide)).2.2.2.2.2

/-- Claim C4: a reduction pops one operator and two values (`v1` then
`v2`) and pushes `v1 ∩ v2` for `"AND"`, `v1 ∪ v2` for `"OR"` and otherwise
`v2 \ v1`; hence `[X, "AND", Y]` evaluates to the intersection and
`[X, "OR", Y]` to the union of the two postings sets. -/
theorem reduction_step_semantics (idx : Index) (X Y : String)
    (hX : is_operator X = false) (hY : is_operator Y = false) :
    (∀ v1 v2 : Finset String, performOperation v1 v2 "AND" = v1 ∩ v2) ∧
    (∀ v1 v2 : Finset String, performOperation v1 v2 "OR" = v1 ∪ v2) ∧
    (∀ (op : String) (v1 v2 : Finset String), op ≠ "AND" → op ≠ "OR" →
        performOperation v1 v2 op = v2 \ v1) ∧
    evaluate [X, "AND", Y] idx =
      some (postingsOf idx X ∩ postingsOf idx Y) ∧
    evaluate [X, "OR", Y] idx =
      some (postingsOf idx X ∪ postingsOf idx Y) := by
  refine ⟨fun v1 v2 => by simp [performOperation],
    fun v1 v2 => by simp [performOperation],
    fun op v1 v2 h1 h2 => by simp [performOperation, h1, h2], ?_, ?_⟩
  · cases hlX : lookupIndex idx X with
    | some pX =>
      cases hlY : lookupIndex idx Y with
      | some pY =>
        simp [evaluate, mainPass, reduceLoop, drainOps, performOperation,
          is_operator_AND, is_operator_OR, is_operator_NOT,
          precedence_AND, precedence_OR, precedence_NOT, hX, hY, hlX, hlY, postingsOf,
          Finset.inter_comm]
      | none =>
        simp [evaluate, mainPass, reduceLoop, drainOps, performOperation,
          is_operator_AND, is_operator_OR, is_operator_NOT,
          precedence_AND, precedence_OR, precedence_NOT, hX, hY, hlX, hlY, postingsOf,
          Finset.inter_comm]
    | none =>
      cases hlY : lookupIndex idx Y with
      | some pY =>
        simp [evaluate, mainPass, reduceLoop, drainOps, performOperation,
          is_operator_AND, is_operator_OR, is_operator_NOT,
          precedence_AND, precedence_OR, precedence_NOT, hX, hY, hlX, hlY, postingsOf,
          Finset.inter_comm]
      | none =>
        simp [evaluate, mainPass, reduceLoop, drainOps, performOperation,
          is_operator_AND, is_operator_OR, is_operator_NOT,
          precedence_AND, precedence_OR, precedence_NOT, hX, hY, hlX, hlY, postingsOf,
          Finset.inter_comm]
  · cases hlX : lookupIndex idx X with
    | some pX =>
      cases hlY : lookupIndex idx Y with
      | some pY =>
        simp [evaluate, mainPass, reduceLoop, drainOps, performOperation,
          is_operator_AND, is_operator_OR, is_operator_NOT,
          precedence_AND, precedence_OR, precedence_NOT, hX, hY, hlX, hlY, postingsOf,
          Finset.union_comm]
      | none =>
        simp [evaluate, mainPass, reduceLoop, drainOps, performOperation,
          is_operator_AND, is_operator_OR, is_operator_NOT,
          precedence_AND, precedence_OR, precedence_NOT, hX, hY, hlX, hlY, postingsOf,
          Finset.union_comm]
    | none =>
      cases hlY : lookupIndex idx Y with
      | some pY =>
        simp [evaluate, mainPass, reduceLoop, drainOps, performOperation,
          is_operator_AND, is_operator_OR, is_operator_NOT,
          precedence_AND, precedence_OR, precedence_NOT, hX, hY, hlX, hlY, postingsOf,
          Finset.union_comm]
      | none =>
        simp [evaluate, mainPass, reduceLoop, drainOps, performOperation,
          is_operator_AND, is_operator_OR, is_operator_NOT,
          precedence_AND, precedence_OR, precedence_NOT, hX, hY, hlX, hlY, postingsOf,
          Finset.union_comm]

/-- Claim C4 (witness): `x AND y` and `x OR y` on a concrete index. -/
theorem reduction_step_semantics_witness :
    evaluate ["x", "AND", "y"] [("x", {"1", "2"}), ("y", {"2", "3"})] =
      some (postingsOf [("x", {"1", "2"}), ("y", {"2", "3"})] "x" ∩
        postingsOf [("x", {"1", "2"}), ("y", {"2", "3"})] "y") :=
  (reduction_step_semantics [("x", {"1", "2"}), ("y", {"2", "3"})] "x" "y"
    (by decide) (by decide)).2.2.2.1

/-- Claim C7: a term token present in the index resolves to its postings
set and an absent one to the empty set, with no failure; hence
`[Q, "AND", X]` with `Q` absent evaluates to the empty set. -/
theorem unknown_term_resolution (idx : Index) (Q X : String)
    (hQ : is_operator Q = false) (hX : is_operator X = false)
    (habs : lookupIndex idx Q = none) :
    (∀ (t : String) (rest ops : List String) (vals : List (Finset String)),
        is_operator t = false →
        mainPass idx (t :: rest) ops vals =
          mainPass idx rest ops ((lookupIndex idx t).getD ∅ :: vals)) ∧
    evaluate [Q, "AND", X] idx = some ∅ := by
  constructor
  · intro t rest ops vals ht
    cases hl : lookupIndex idx t <;> simp [mainPass, ht, hl]
  · cases hlX : lookupIndex idx X with
    | some pX =>
      simp [evaluate, mainPass, reduceLoop, drainOps, performOperation,
        is_operator_AND, is_operator_OR, is_operator_NOT,
        precedence_AND, precedence_OR, precedence_NOT, hQ, hX, habs, hlX]
    | none =>
      simp [evaluate, mainPass, reduceLoop, drainOps, performOperation,
        is_operator_AND, is_operator_OR, is_operator_NOT,
        precedence_AND, precedence_OR, precedence_NOT, hQ, hX, habs, hlX]

/-- Claim C7 (witness): unknown term `q` conjoined with a known term. -/
theorem unknown_term_resolution_witness :
    evaluate ["q", "AND", "x"] [("x", {"1", "2"})] = some ∅ :=
  (unknown_term_resolution [("x", {"1", "2"})] "q" "x"
    (by decide) (by decide) (by decide)).2

/-- Claim C8 (counterexample): not every token stream with mismatched
operator/operand counts fails: the operator-free stream `["X", "Y"]` (two
operands, zero operators) completes without failure, leaves two values on
the value stack, and returns the top one. -/
theorem malformed_query_cex :
    mainPass [("X", {"1"}), ("Y", {"2"})] ["X", "Y"] [] [] =
      some ([], [{"2"}, {"1"}]) ∧
    drainOps [] [({"2"} : Finset String), {"1"}] = some [{"2"}, {"1"}] ∧
    evaluate ["X", "Y"] [("X", {"1"}), ("Y", {"2"})] = some {"2"} ∧
    (["X", "Y"].filter is_operator).length ≠
      (["X", "Y"].filter (fun t => !is_operator t)).length - 1 := by
  refine ⟨by decide, by decide, by decide, by decide⟩

/-- Claim C8 (amended): a stream that exhausts a stack, such as
`["AND", x]`, fails with stack underflow and yields no result; but success
does not guarantee a single remaining value: an operator-free two-term
stream succeeds with two values left on the value stack, returning the
top one. -/
theorem malformed_query_amended (idx : Index) (x y : String)
    (hx : is_operator x = false) (hy : is_operator y = false) :
    evaluate ["AND", x] idx = none ∧
    mainPass idx [x, y] [] [] =
      some ([], [postingsOf idx y, postingsOf idx x]) ∧
    evaluate [x, y] idx = some (postingsOf idx y) := by
  have hall : ∀ t ∈ [x, y], is_operator t = false := by
    intro t ht
    rcases List.mem_cons.mp ht with rfl | ht'
    · exact hx
    · rcases List.mem_cons.mp ht' with rfl | h''
      · exact hy
      · simp at h''
  have hm := mainPass_terms idx [x, y] [] [] hall
  simp only [List.map_cons, List.map_nil, List.reverse_cons, List.reverse_nil,
    List.nil_append, List.append_nil, List.cons_append, List.singleton_append] at hm
  refine ⟨?_, hm, ?_⟩
  · cases hl : lookupIndex idx x with
    | some p =>
      simp [evaluate, mainPass, reduceLoop, drainOps, is_operator_AND,
        precedence_AND, hx, hl]
    | none =>
      simp [evaluate, mainPass, reduceLoop, drainOps, is_operator_AND,
        precedence_AND, hx, hl]
  · simp [evaluate, hm, drainOps]

/-- Claim C8 (witness): `["AND", x]` fails and `[x, y]` succeeds on a
concrete index. -/
theorem malformed_query_amended_witness :
    evaluate ["AND", "x"] [("x", {"1"}), ("y", {"2"})] = none ∧
    evaluate ["x", "y"] [("x", {"1"}), ("y", {"2"})] =
      some (postingsOf [("x", {"1"}), ("y", {"2"})] "y") :=
  ⟨(malformed_query_amended [("x", {"1"}), ("y", {"2"})] "x" "y"
      (by decide) (by decide)).1,
    (malformed_query_amended [("x", {"1"}), ("y", {"2"})] "x" "y"
      (by decide) (by decide)).2.2⟩

/-! ## Heap-level evaluator (claim C9)

To state that evaluation never mutates an index-owned postings set, the
same source lines (main.py 112-147, 166-180) are embedded once more with
Python's set identity made explicit: a heap of set cells, an index mapping
each term to the cell holding its postings (`inverted_index[elem]` returns
a reference), and reductions that allocate a fresh cell — as
`set.intersection`, `set.union` and `set -` each return a new set.  Every
function returns the final heap even on a stack-underflow failure, so the
frame property also covers failing evaluations. -/

abbrev Heap := List (Finset String)

/-- The index at heap level: each term maps to the heap cell holding its
postings set. -/
abbrev HeapIndex := List (String × Nat)

/-- `term in inverted_index` / `inverted_index[term]` at heap level:
the reference of the first entry whose key equals the term. -/
def lookupRef : HeapIndex → String → Option Nat
  | [], _ => none
  | (t, r) :: rest, term => if t = term then some r else lookupRef rest term

/-- `perform_operation` at heap level: read the two operand cells, compute
the result with `performOperation`, and store it in a fresh cell (Python's
`intersection`, `union` and `-` allocate a new set). -/
def performOperationH (heap : Heap) (r1 r2 : Nat) (op : String) :
    Heap × Nat :=
  (heap ++ [performOperation (heap.getD r1 ∅) (heap.getD r2 ∅) op],
    heap.length)

/-- The inner `while` of `evaluate` at heap level (main.py 119-124). -/
def reduceLoopH (p : Nat) :
    List String → List Nat → Heap → Heap × Option (List String × List Nat)
  | [], vals, heap => (heap, some ([], vals))
  | op :: ops, vals, heap =>
    if precedence op ≥ p then
      match vals with
      | r1 :: r2 :: rest =>
        match performOperationH heap r1 r2 op with
        | (heap', r) => reduceLoopH p ops (r :: rest) heap'
      | _ => (heap, none)
    else (heap, some (op :: ops, vals))

/-- The main token loop of `evaluate` at heap level (main.py 117-133):
a present term pushes the index's own cell reference; an absent term
allocates a fresh empty cell (`set()`) and pushes its reference. -/
def mainPassH (idx : HeapIndex) :
    List String → List String → List Nat → Heap →
      Heap × Option (List String × List Nat)
  | [], ops, vals, heap => (heap, some (ops, vals))
  | elem :: rest, ops, vals, heap =>
    if is_operator elem then
      match reduceLoopH (precedence elem) ops vals heap with
      | (heap', some (ops', vals')) =>
        mainPassH idx rest (elem :: ops') vals' heap'
      | (heap', none) => (heap', none)
    else
      match lookupRef idx elem with
      | some r => mainPassH idx rest ops (r :: vals) heap
      | none => mainPassH idx rest ops (heap.length :: vals) (heap ++ [∅])

/-- The final drain of `evaluate` at heap level (main.py 136-145). -/
def drainOpsH :
    List String → List Nat → Heap → Heap × Option (List Nat)
  | [], vals, heap => (heap, some vals)
  | first_op :: ops, vals, heap =>
    match vals with
    | r1 :: r2 :: rest =>
      if first_op = "NOT" then
        match ops with
        | [] => (heap, none)
        | _ :: ops' =>
          match performOperationH heap r1 r2 "difference" with
          | (heap', r) => drainOpsH ops' (r :: rest) heap'
      else
        match performOperationH heap r1 r2 first_op with
        | (heap', r) => drainOpsH ops (r :: rest) heap'
    | _ => (heap, none)

/-- `evaluate` at heap level (main.py 112-147): returns the final heap
together with the result cell reference (or `none` on failure). -/
def evaluateH (query : List String) (idx : HeapIndex) (heap : Heap) :
    Heap × Option Nat :=
  match mainPassH idx query [] [] heap with
  | (heap', none) => (heap', none)
  | (heap', some (ops, vals)) =>
    match drainOpsH ops vals heap' with
    | (heap'', none) => (heap'', none)
    | (heap'', some vals') => (heap'', vals'.head?)

lemma reduceLoopH_cons_step (p : Nat) (op : String) (ops : List String)
    (r1 r2 : Nat) (rest : List Nat) (heap : Heap)
    (hge : precedence op ≥ p) :
    reduceLoopH p (op :: ops) (r1 :: r2 :: rest) heap =
      reduceLoopH p ops (heap.length :: rest)
        (heap ++ [performOperation (heap.getD r1 ∅) (heap.getD r2 ∅) op]) := by
  simp [reduceLoopH, hge, performOperationH]

lemma mainPassH_op_step (idx : HeapIndex) (elem : String)
    (hop : is_operator elem = true) (rest ops : List String)
    (vals : List Nat) (heap : Heap) :
    mainPassH idx (elem :: rest) ops vals heap =
      match reduceLoopH (precedence elem) ops vals heap with
      | (heap', some (ops', vals')) =>
        mainPassH idx rest (elem :: ops') vals' heap'
      | (heap', none) => (heap', none) := by
  simp [mainPassH, hop]

lemma drainOpsH_not_step (ops : List String) (o : String) (r1 r2 : Nat)
    (rest : List Nat) (heap : Heap) :
    drainOpsH ("NOT" :: o :: ops) (r1 :: r2 :: rest) heap =
      drainOpsH ops (heap.length :: rest)
        (heap ++
          [performOperation (heap.getD r1 ∅) (heap.getD r2 ∅)
            "difference"]) := by
  simp [drainOpsH, performOperationH]

lemma drainOpsH_op_step (first_op : String) (hne : first_op ≠ "NOT")
    (ops : List String) (r1 r2 : Nat) (rest : List Nat) (heap : Heap) :
    drainOpsH (first_op :: ops) (r1 :: r2 :: rest) heap =
      drainOpsH ops (heap.length :: rest)
        (heap ++
          [performOperation (heap.getD r1 ∅) (heap.getD r2 ∅)
            first_op]) := by
  cases ops <;> simp [drainOpsH, hne, performOperationH]

lemma reduceLoopH_heap_ext (p : Nat) :
    ∀ (ops : List String) (vals : List Nat) (heap : Heap),
      ∃ e, (reduceLoopH p ops vals heap).1 = heap ++ e := by
  intro ops
  induction ops with
  | nil => intro vals heap; exact ⟨[], by simp [reduceLoopH]⟩
  | cons op ops ih =>
    intro vals heap
    by_cases hge : precedence op ≥ p
    · cases vals with
      | nil => exact ⟨[], by simp [reduceLoopH, hge]⟩
      | cons r1 vals' =>
        cases vals' with
        | nil => exact ⟨[], by simp [reduceLoopH, hge]⟩
        | cons r2 rest =>
          obtain ⟨e, he⟩ := ih (heap.length :: rest)
            (heap ++ [performOperation (heap.getD r1 ∅) (heap.getD r2 ∅) op])
          refine ⟨[performOperation (heap.getD r1 ∅) (heap.getD r2 ∅) op]
            ++ e, ?_⟩
          rw [reduceLoopH_cons_step p op ops r1 r2 rest heap hge,
            ← List.append_assoc]
          exact he
    · exact ⟨[], by simp [reduceLoopH, hge]⟩

lemma mainPassH_heap_ext (idx : HeapIndex) :
    ∀ (tokens ops : List String) (vals : List Nat) (heap : Heap),
      ∃ e, (mainPassH idx tokens ops vals heap).1 = heap ++ e := by
  intro tokens
  induction tokens with
  | nil => intro ops vals heap; exact ⟨[], by simp [mainPassH]⟩
  | cons elem rest ih =>
    intro ops vals heap
    by_cases hop : is_operator elem = true
    · obtain ⟨e1, he1⟩ := reduceLoopH_heap_ext (precedence elem) ops vals heap
      rcases hr : reduceLoopH (precedence elem) ops vals heap with ⟨heap', o⟩
      rw [hr] at he1
      cases o with
      | some pr =>
        obtain ⟨ops', vals'⟩ := pr
        have hh : heap' = heap ++ e1 := he1
        subst hh
        obtain ⟨e2, he2⟩ := ih (elem :: ops') vals' (heap ++ e1)
        refine ⟨e1 ++ e2, ?_⟩
        rw [mainPassH_op_step idx elem hop rest ops vals heap, hr,
          ← List.append_assoc]
        exact he2
      | none =>
        have hh : heap' = heap ++ e1 := he1
        subst hh
        refine ⟨e1, ?_⟩
        rw [mainPassH_op_step idx elem hop rest ops vals heap, hr]
    · cases hl : lookupRef idx elem with
      | some r =>
        obtain ⟨e, he⟩ := ih ops (r :: vals) heap
        exact ⟨e, by simp [mainPassH, hop, hl, he]⟩
      | none =>
        obtain ⟨e, he⟩ := ih ops (heap.length :: vals) (heap ++ [∅])
        exact ⟨[∅] ++ e, by simp [mainPassH, hop, hl, he, List.append_assoc]⟩

lemma drainOpsH_heap_ext_aux :
    ∀ (n : Nat) (ops : List String) (vals : List Nat) (heap : Heap),
      ops.length ≤ n → ∃ e, (drainOpsH ops vals heap).1 = heap ++ e := by
  intro n
  induction n with
  | zero =>
    intro ops vals heap hle
    have : ops = [] := List.eq_nil_of_length_eq_zero (Nat.le_zero.mp hle)
    subst this
    exact ⟨[], by simp [drainOpsH]⟩
  | succ n ih =>
    intro ops vals heap hle
    cases ops with
    | nil => exact ⟨[], by simp [drainOpsH]⟩
    | cons first_op ops' =>
      cases vals with
      | nil => exact ⟨[], by simp [drainOpsH]⟩
      | cons r1 vals' =>
        cases vals' with
        | nil => exact ⟨[], by simp [drainOpsH]⟩
        | cons r2 rest =>
          by_cases hnot : first_op = "NOT"
          · subst hnot
            cases ops' with
            | nil => exact ⟨[], by simp [drainOpsH]⟩
            | cons o ops'' =>
              obtain ⟨e, he⟩ := ih ops'' (heap.length :: rest)
                (heap ++
                  [performOperation (heap.getD r1 ∅) (heap.getD r2 ∅)
                    "difference"])
                (by simp at hle ⊢; omega)
              refine ⟨[performOperation (heap.getD r1 ∅) (heap.getD r2 ∅)
                  "difference"] ++ e, ?_⟩
              rw [drainOpsH_not_step ops'' o r1 r2 rest heap,
                ← List.append_assoc]
              exact he
          · obtain ⟨e, he⟩ := ih ops' (heap.length :: rest)
              (heap ++
                [performOperation (heap.getD r1 ∅) (heap.getD r2 ∅) first_op])
              (by simp at hle ⊢; omega)
            refine ⟨[performOperation (heap.getD r1 ∅) (heap.getD r2 ∅)
                first_op] ++ e, ?_⟩
            rw [drainOpsH_op_step first_op hnot ops' r1 r2 rest heap,
              ← List.append_assoc]
            exact he

lemma drainOpsH_heap_ext (ops : List String) (vals : List Nat) (heap : Heap) :
    ∃ e, (drainOpsH ops vals heap).1 = heap ++ e :=
  drainOpsH_heap_ext_aux ops.length ops vals heap le_rfl

lemma evaluateH_heap_ext (query : List String) (idx : HeapIndex)
    (heap : Heap) : ∃ e, (evaluateH query idx heap).1 = heap ++ e := by
  obtain ⟨e1, he1⟩ := mainPassH_heap_ext idx query [] [] heap
  rcases hm : mainPassH idx query [] [] heap with ⟨heap', o⟩
  rw [hm] at he1
  have hh1 : heap' = heap ++ e1 := he1
  subst hh1
  cases o with
  | none => exact ⟨e1, by simp [evaluateH, hm]⟩
  | some pr =>
    obtain ⟨ops, vals⟩ := pr
    obtain ⟨e2, he2⟩ := drainOpsH_heap_ext ops vals (heap ++ e1)
    rcases hd : drainOpsH ops vals (heap ++ e1) with ⟨heap'', o2⟩
    rw [hd] at he2
    have hh2 : heap'' = (heap ++ e1) ++ e2 := he2
    subst hh2
    cases o2 with
    | none =>
      exact ⟨e1 ++ e2, by simp [evaluateH, hm, hd, List.append_assoc]⟩
    | some vals' =>
      exact ⟨e1 ++ e2, by simp [evaluateH, hm, hd, List.append_assoc]⟩

/-- Claim C9: every reduction stores its result in a fresh cell (never
writing an existing one), evaluation only ever appends to the heap — also
when it fails — and therefore every postings cell the index refers to is
unchanged by evaluation. -/
theorem eval_preserves_index (query : List String) (idx : HeapIndex)
    (heap : Heap) :
    (∀ (h : Heap) (r1 r2 : Nat) (op : String),
        performOperationH h r1 r2 op =
          (h ++ [performOperation (h.getD r1 ∅) (h.getD r2 ∅) op],
            h.length)) ∧
    (∃ e, (evaluateH query idx heap).1 = heap ++ e) ∧
    (∀ (t : String) (r : Nat), (t, r) ∈ idx → r < heap.length →
        ((evaluateH query idx heap).1).getD r ∅ = heap.getD r ∅) := by
  refine ⟨fun h r1 r2 op => rfl, evaluateH_heap_ext query idx heap, ?_⟩
  intro t r _ hr
  obtain ⟨e, he⟩ := evaluateH_heap_ext query idx heap
  rw [he, List.getD_eq_getElem?_getD, List.getD_eq_getElem?_getD,
    List.getElem?_append_left hr]

/-- Claim C9 (witness): the query `X AND NOT Y` against a two-cell heap
leaves the index's cell 0 unchanged. -/
theorem eval_preserves_index_witness :
    ((evaluateH ["X", "AND", "NOT", "Y"] [("X", 0), ("Y", 1)]
        [{"1", "2"}, {"2"}]).1).getD 0 ∅ =
      ([({"1", "2"} : Finset String), {"2"}]).getD 0 ∅ :=
  (eval_preserves_index ["X", "AND", "NOT", "Y"] [("X", 0), ("Y", 1)]
    [{"1", "2"}, {"2"}]).2.2 "X" 0 (by decide) (by decide)

end BoolRet
